import Mathlib

/-!
Shallow embedding of the vocagame quiz application (src/vocagame.py):
the rankings store and its operations (clean_invalid_scores,
get_book_champion, save_score_if_best), the distractor-options
generation loop of the playing stage, the quiz session state machine
(game start reset and the submit_answer callback), the question
sampling at game start, and the chapter-code classification.

Modelling conventions:
* a SQLite table is a list of row structures; SQL SELECT/UPDATE/DELETE
  become list filter/map operations in table scan order;
* the REAL column time_taken is modelled as a rational number;
* CURRENT_TIMESTAMP is passed in as an explicit `now` parameter;
* random.choice / random.sample / random.shuffle are driven by an
  explicit stream of choices (a function from attempt number to value,
  or from step number to index), quantified over in the theorems.
-/

namespace Voca

/-- Raw ranking row as seen by the startup cleanup pass
clean_invalid_scores: only the score and total_questions columns
matter there; total_questions may be NULL (modelled as none). -/
structure RawRow where
  score : Int
  tq : Option Int
deriving DecidableEq

/-- First UPDATE of clean_invalid_scores: SET score = total_questions
WHERE score > total_questions AND total_questions > 0. A NULL
total_questions makes the WHERE clause evaluate to NULL, so the row is
not selected. -/
def cleanStep1 (r : RawRow) : RawRow :=
  match r.tq with
  | some t => if r.score > t ∧ t > 0 then { r with score := t } else r
  | none => r

/-- Second UPDATE of clean_invalid_scores: SET total_questions = score
WHERE total_questions IS NULL OR total_questions = 0. -/
def cleanStep2 (r : RawRow) : RawRow :=
  match r.tq with
  | none => { r with tq := some r.score }
  | some t => if t = 0 then { r with tq := some r.score } else r

/-- Effect of the whole cleanup pass on a single row (the two UPDATE
statements run in sequence over the whole table). -/
def cleanRow (r : RawRow) : RawRow := cleanStep2 (cleanStep1 r)

/-- clean_invalid_scores over the whole rankings table: the first
UPDATE runs over every row, then the second UPDATE runs over every
row. -/
def cleanInvalidScores (db : List RawRow) : List RawRow :=
  (db.map cleanStep1).map cleanStep2

/-- Integrity property the cleanup pass is meant to establish:
score does not exceed total_questions (and total_questions is not
NULL). -/
def rawRowValid (r : RawRow) : Prop :=
  ∃ t, r.tq = some t ∧ r.score ≤ t

/-- Ranking record, one row of the rankings table. id is the INTEGER
PRIMARY KEY, time is the REAL time_taken column modelled as a
rational, playedAt models the played_at timestamp. -/
structure Row where
  id : Nat
  player : String
  book : String
  chapter : Int
  score : Int
  total : Int
  time : Rat
  playedAt : Nat
deriving DecidableEq

/-- Python min over the (nonempty) chapter list, as used at game
start; on the empty list the app never calls it (the setup stage
errors out first), 0 is returned as an arbitrary default. -/
def chaptersMin : List Int → Int
  | [] => 0
  | c :: cs => cs.foldl min c

/-- Python max over the (nonempty) chapter list, 0 as the unused
default for the empty list. -/
def chaptersMax : List Int → Int
  | [] => 0
  | c :: cs => cs.foldl max c

/-- Chapter-code classification at game start: 0 when the played range
spans the book's minimum to maximum chapter, the chapter number when a
single chapter is played, -1 otherwise (custom range). -/
def classifyChapter (chapters : List Int) (startChapter endChapter : Int) : Int :=
  if startChapter = chaptersMin chapters ∧ endChapter = chaptersMax chapters then 0
  else if startChapter = endChapter then startChapter
  else -1

/-- Placeholder appended when the meaning pool has at most one entry
(the Korean string of the source meaning "insufficient wrong-answer
data"). -/
def insufficientData : String := "오답 데이터 부족"

/-- Placeholder used to pad the option list when the retry budget is
exhausted. -/
def filler : String := "..."

/-- One iteration body of the options sampling loop: when the meaning
pool has more than one entry, append the sampled wrong answer unless
it is already among the options; otherwise append the
insufficient-data placeholder. -/
def optionsStep (allMeanings : List String) (options : List String)
    (wrong : String) : List String :=
  if allMeanings.length > 1 then
    if wrong ∈ options then options else options ++ [wrong]
  else options ++ [insufficientData]

/-- Options generation loop of the playing stage. The source loops
`while len(options) < 4` incrementing loop_count each iteration,
samples `wrong = random.choice(all_meanings)` when the pool has more
than one entry (appending it only when not already present), appends
the insufficient-data placeholder otherwise, and after the body checks
`if loop_count > 20` in which case it pads with "..." to length 4 and
breaks. Here `choice n` models the value random.choice returned on the
n-th iteration, and `budget` counts down the remaining iterations
whose loop_count stays at most 20, so `budget = 20 - loopCount`; the
iteration that runs with budget 0 is the one whose incremented
loop_count is 21 and which therefore pads and breaks. Returns the
final options list and the final loop_count. -/
def optionsLoopAux (allMeanings : List String) (choice : Nat → String) :
    Nat → Nat → List String → List String × Nat
  | budget, loopCount, options =>
    if options.length < 4 then
      let options' := optionsStep allMeanings options (choice (loopCount + 1))
      match budget with
      | 0 => (options' ++ List.replicate (4 - options'.length) filler, loopCount + 1)
      | b + 1 => optionsLoopAux allMeanings choice b (loopCount + 1) options'
    else (options, loopCount)

/-- Options generation for one question: start from [correct_meaning]
and run the sampling loop; the second component is the number of loop
iterations performed (equals the number of random.choice calls when
the pool has more than one entry). The final random.shuffle is
modelled in the theorems by quantifying over permutations of the
returned list. -/
def genOptions (correct : String) (allMeanings : List String)
    (choice : Nat → String) : List String × Nat :=
  optionsLoopAux allMeanings choice 20 0 [correct]

/-- Stages of the Streamlit session state machine. -/
inductive Stage where
  | setup
  | playing
  | finished
  | ranking
deriving DecidableEq

/-- One quiz word as stored in st.session_state['words']: the tuple
(english, korean, type, chapter) with korean already resolved to one
concrete meaning. -/
structure Word where
  english : String
  korean : String
  wtype : String
  chapter : Int
deriving DecidableEq

/-- Fallback word for out-of-range indexing; the app only ever indexes
words with the current question index, which stays below the word
count. -/
def defaultWord : Word := ⟨"", "", "", 0⟩

/-- Quiz session state: the slice of st.session_state driven by the
game-start reset and the submit_answer callback (timing values are
not modelled). -/
structure GameState where
  words : List Word
  totalQ : Nat
  score : Nat
  currentQ : Nat
  solved : Finset Nat
  stage : Stage
deriving DecidableEq

/-- Session reset performed by the game-start button: words and
total_q are set from the drawn word list, score 0, current_q 0, empty
solved_indexes, stage playing. -/
def startSession (ws : List Word) : GameState :=
  { words := ws, totalQ := ws.length, score := 0, currentQ := 0,
    solved := ∅, stage := Stage.playing }

/-- The submit_answer callback: no-op when the question index is
already solved; otherwise mark it solved, increment the score iff the
selected meaning matches the word's korean meaning, then advance to
the next question or finish. idx is the question index the rendered
buttons were bound to. -/
def submitAnswer (idx : Nat) (selected : String) (s : GameState) : GameState :=
  if idx ∈ s.solved then s
  else
    let correct := (s.words.getD idx defaultWord).korean
    let score' := if selected = correct then s.score + 1 else s.score
    if s.currentQ + 1 < s.totalQ then
      { s with solved := insert idx s.solved, score := score',
               currentQ := s.currentQ + 1 }
    else
      { s with solved := insert idx s.solved, score := score',
               stage := Stage.finished }

/-- Run a sequence of submit_answer callbacks, each carrying the
question index its buttons were rendered for and the selected
option. -/
def runSubmits (s : GameState) (subs : List (Nat × String)) : GameState :=
  subs.foldl (fun st p => submitAnswer p.1 p.2 st) s

/-- Sampling without replacement driven by an index stream: at each
step remove the picked element from the remaining pool and prepend it
to the result. Models random.sample (and, when asked for the whole
pool, random.shuffle) of the source's game start. -/
def sampleWR (pick : Nat → Nat) : Nat → List α → List α
  | 0, _ => []
  | k + 1, pool =>
    if h : pool.length = 0 then []
    else
      let i := pick k % pool.length
      pool.get ⟨i, Nat.mod_lt _ (Nat.pos_of_ne_zero h)⟩ ::
        sampleWR pick k (pool.eraseIdx i)

/-- Question drawing at game start: when fewer words are available
than requested, take all of them (random.shuffle, a permutation);
otherwise random.sample exactly the requested number without
replacement. -/
def startQuestions (pool : List α) (requested : Nat) (pick : Nat → Nat) : List α :=
  if pool.length < requested then sampleWR pick pool.length pool
  else sampleWR pick requested pool

/-- Defensive clamp at the top of save_score_if_best:
`if score > total_q: score = total_q`. -/
def clampScore (score total : Int) : Int :=
  if score > total then total else score

/-- Strict precedence of the get_book_champion ORDER BY key:
score DESC, total_questions DESC, time_taken ASC. -/
def champLt (a b : Row) : Prop :=
  a.score > b.score ∨ (a.score = b.score ∧
    (a.total > b.total ∨ (a.total = b.total ∧ a.time < b.time)))

instance : DecidablePred fun p : Row × Row => champLt p.1 p.2 := by
  intro p
  unfold champLt
  infer_instance

instance (a b : Row) : Decidable (champLt a b) := by
  unfold champLt
  infer_instance

/-- Strict precedence of the ordering the specification text gives for
getChampion: score DESC, time_taken ASC, and nothing else. Modelled
from the spec for comparison with the source's key. -/
def champLtSpec (a b : Row) : Prop :=
  a.score > b.score ∨ (a.score = b.score ∧ a.time < b.time)

instance (a b : Row) : Decidable (champLtSpec a b) := by
  unfold champLtSpec
  infer_instance

/-- Keep the earlier row unless the later row strictly precedes it:
folding this over the candidates yields the first row of the ORDER BY,
i.e. the row the LIMIT 1 query returns (ties keep the earlier row of
the scan). -/
def pickChamp (a b : Row) : Row := if champLt b a then b else a

/-- Same selection under the specification's two-key ordering. -/
def pickChampSpec (a b : Row) : Row := if champLtSpec b a then b else a

/-- get_book_champion: among rows of the book with chapter = 0, the
first row of ORDER BY score DESC, total_questions DESC, time_taken
ASC, projected to (player_name, score, total_questions); none when no
such row exists. -/
def getBookChampion (db : List Row) (book : String) : Option (String × Int × Int) :=
  match db.filter (fun r => decide (r.book = book ∧ r.chapter = 0)) with
  | [] => none
  | c :: rest =>
    let w := rest.foldl pickChamp c
    some (w.player, w.score, w.total)

/-- Champion under the specification's ordering (score DESC, time
ASC), for comparison with getBookChampion. -/
def getBookChampionSpec (db : List Row) (book : String) : Option (String × Int × Int) :=
  match db.filter (fun r => decide (r.book = book ∧ r.chapter = 0)) with
  | [] => none
  | c :: rest =>
    let w := rest.foldl pickChampSpec c
    some (w.player, w.score, w.total)

/-- Lookup of save_score_if_best: SELECT id, score, time_taken FROM
rankings WHERE the four key columns match; fetchone returns the first
matching row in scan order. -/
def findRecord (db : List Row) (name book : String) (chapter total : Int) : Option Row :=
  db.find? (fun r =>
    decide (r.player = name ∧ r.book = book ∧ r.chapter = chapter ∧ r.total = total))

/-- Rows of one (book_name, chapter, total_questions) ranking group. -/
def groupRows (db : List Row) (book : String) (chapter total : Int) : List Row :=
  db.filter (fun r => decide (r.book = book ∧ r.chapter = chapter ∧ r.total = total))

/-- Comparator of the top-10 retention query: ORDER BY score DESC,
time_taken ASC. -/
def trimLe (a b : Row) : Bool :=
  decide (a.score > b.score ∨ (a.score = b.score ∧ a.time ≤ b.time))

/-- Ids the top-10 retention SELECT keeps: the first ten rows of the
group ordered by score DESC, time_taken ASC. -/
def top10Ids (db : List Row) (book : String) (chapter total : Int) : List Nat :=
  (((groupRows db book chapter total).mergeSort trimLe).take 10).map Row.id

/-- Top-10 retention DELETE: remove every row of the exact group whose
id is not among the kept ids; the source only issues the DELETE when
the kept id list is nonempty. -/
def trimGroup (db : List Row) (book : String) (chapter total : Int) : List Row :=
  let keep := top10Ids db book chapter total
  if keep.isEmpty then db
  else
    db.filter (fun r =>
      decide (¬(r.book = book ∧ r.chapter = chapter ∧ r.total = total) ∨ r.id ∈ keep))

/-- Fresh id for an INSERT, modelling the INTEGER PRIMARY KEY
AUTOINCREMENT column: strictly larger than every existing id. -/
def nextId (db : List Row) : Nat :=
  (db.map Row.id).foldr max 0 + 1

/-- UPDATE of save_score_if_best: SET score, time_taken and played_at
on the matched row. -/
def updRow (r : Row) (score : Int) (time : Rat) (now : Nat) : Row :=
  { r with score := score, time := time, playedAt := now }

/-- Insert-or-update step of save_score_if_best, before the top-10
retention: clamp the score, look the key up; update the matched row
iff the clamped score is higher, or equal with a faster time; insert
a fresh row when no row matches; the Bool is should_update. -/
def applyResult (db : List Row) (name book : String) (chapter : Int)
    (score0 total : Int) (time : Rat) (now : Nat) : List Row × Bool :=
  let score := clampScore score0 total
  match findRecord db name book chapter total with
  | some r =>
    if score > r.score ∨ (score = r.score ∧ time < r.time) then
      (db.map (fun x => if x.id = r.id then updRow x score time now else x), true)
    else (db, false)
  | none =>
    (db ++ [⟨nextId db, name, book, chapter, score, total, time, now⟩], true)

/-- save_score_if_best: insert-or-update, then, when a write happened,
top-10 retention on the affected (book, chapter, total_questions)
group; returns the new table and should_update. -/
def saveScoreIfBest (db : List Row) (name book : String) (chapter : Int)
    (score0 total : Int) (time : Rat) (now : Nat) : List Row × Bool :=
  let res := applyResult db name book chapter score0 total time now
  (if res.2 then trimGroup res.1 book chapter total else res.1, res.2)

end Voca

namespace Voca

/-! Helper lemmas -/

/-- Unfolding of the first cleanup UPDATE on a non-NULL row. -/
theorem cleanStep1_some (s t : Int) :
    cleanStep1 ⟨s, some t⟩ = if s > t ∧ t > 0 then ⟨t, some t⟩ else ⟨s, some t⟩ := rfl

/-- Unfolding of the second cleanup UPDATE on a non-NULL row. -/
theorem cleanStep2_some (s t : Int) :
    cleanStep2 ⟨s, some t⟩ = if t = 0 then ⟨s, some s⟩ else ⟨s, some t⟩ := rfl

/-- A single row with a non-negative (or NULL) total_questions is made
valid by the cleanup pass. -/
theorem cleanRow_valid (r : RawRow) (h : ∀ t, r.tq = some t → 0 ≤ t) :
    rawRowValid (cleanRow r) := by
  obtain ⟨s, tq⟩ := r
  cases tq with
  | none =>
    exact ⟨s, rfl, le_refl s⟩
  | some t =>
    have ht : 0 ≤ t := h t rfl
    unfold cleanRow
    rw [cleanStep1_some]
    by_cases h1 : s > t ∧ t > 0
    · rw [if_pos h1, cleanStep2_some, if_neg (by omega : ¬ t = 0)]
      exact ⟨t, rfl, le_refl t⟩
    · rw [if_neg h1, cleanStep2_some]
      by_cases h2 : t = 0
      · rw [if_pos h2]
        exact ⟨s, rfl, le_refl s⟩
      · rw [if_neg h2]
        exact ⟨t, rfl, show s ≤ t by omega⟩

/-- Folding min over a list yields a lower bound of the seed and of
every element. -/
theorem foldl_min_le (cs : List Int) :
    ∀ c : Int, cs.foldl min c ≤ c ∧ ∀ x ∈ cs, cs.foldl min c ≤ x := by
  induction cs with
  | nil => intro c; exact ⟨le_refl c, by intro x hx; cases hx⟩
  | cons b cs ih =>
    intro c
    have h := ih (min c b)
    refine ⟨le_trans h.1 (min_le_left c b), ?_⟩
    intro x hx
    rcases List.mem_cons.mp hx with rfl | hx
    · exact le_trans h.1 (min_le_right c x)
    · exact h.2 x hx

/-- Folding min over a list yields the seed or one of the elements. -/
theorem foldl_min_mem (cs : List Int) :
    ∀ c : Int, cs.foldl min c = c ∨ cs.foldl min c ∈ cs := by
  induction cs with
  | nil => intro c; exact Or.inl rfl
  | cons b cs ih =>
    intro c
    rcases ih (min c b) with h | h
    · rcases min_choice c b with hm | hm
      · exact Or.inl (by rw [List.foldl_cons, h, hm])
      · exact Or.inr (by rw [List.foldl_cons, h, hm]; exact List.mem_cons_self b cs)
    · exact Or.inr (List.mem_cons_of_mem b h)

/-- Folding max over a list yields an upper bound of the seed and of
every element. -/
theorem foldl_max_le (cs : List Int) :
    ∀ c : Int, c ≤ cs.foldl max c ∧ ∀ x ∈ cs, x ≤ cs.foldl max c := by
  induction cs with
  | nil => intro c; exact ⟨le_refl c, by intro x hx; cases hx⟩
  | cons b cs ih =>
    intro c
    have h := ih (max c b)
    refine ⟨le_trans (le_max_left c b) h.1, ?_⟩
    intro x hx
    rcases List.mem_cons.mp hx with rfl | hx
    · exact le_trans (le_max_right c x) h.1
    · exact h.2 x hx

/-- Folding max over a list yields the seed or one of the elements. -/
theorem foldl_max_mem (cs : List Int) :
    ∀ c : Int, cs.foldl max c = c ∨ cs.foldl max c ∈ cs := by
  induction cs with
  | nil => intro c; exact Or.inl rfl
  | cons b cs ih =>
    intro c
    rcases ih (max c b) with h | h
    · rcases max_choice c b with hm | hm
      · exact Or.inl (by rw [List.foldl_cons, h, hm])
      · exact Or.inr (by rw [List.foldl_cons, h, hm]; exact List.mem_cons_self b cs)
    · exact Or.inr (List.mem_cons_of_mem b h)

/-! Claim theorems -/

/-- C10 counterexample: a row whose total_questions is negative is
selected by neither UPDATE of clean_invalid_scores (the first demands
total_questions > 0, the second demands NULL or 0), so after the pass
the row still has score 1 > total_questions -1: the pass does not
establish score ≤ total_questions for every row. -/
theorem cleanInvalidScores_negative_total_cex :
    cleanInvalidScores [⟨1, some (-1)⟩] = [⟨1, some (-1)⟩] ∧
    ¬ rawRowValid ⟨1, some (-1)⟩ := by
  constructor
  · decide
  · rintro ⟨t, ht, hle⟩
    have ht' : some (-1 : Int) = some t := ht
    cases ht'
    exact absurd hle (by decide)

/-- C10 (amended): for every rankings table, the cleanup pass maps each
row through the two UPDATE rules in sequence: a row with
score > total_questions > 0 has its score clamped down to
total_questions, and a row with NULL or 0 total_questions gets
total_questions set equal to its score; and provided every row's
total_questions is NULL or non-negative, after the pass every row
satisfies score ≤ total_questions. -/
theorem cleanInvalidScores_valid (db : List RawRow)
    (hpre : ∀ r ∈ db, ∀ t, r.tq = some t → 0 ≤ t) :
    (∀ r : RawRow, ∀ t, r.tq = some t → r.score > t → 0 < t → cleanRow r = ⟨t, some t⟩) ∧
    (∀ r : RawRow, (r.tq = none ∨ r.tq = some 0) → cleanRow r = ⟨r.score, some r.score⟩) ∧
    cleanInvalidScores db = db.map cleanRow ∧
    (∀ r ∈ cleanInvalidScores db, rawRowValid r) := by
  refine ⟨?_, ?_, ?_, ?_⟩
  · rintro ⟨s, tq⟩ t ht hgt hpos
    have ht' : tq = some t := ht
    subst ht'
    have hgt' : s > t := hgt
    have hpos' : (0 : Int) < t := hpos
    unfold cleanRow
    rw [cleanStep1_some, if_pos ⟨hgt', hpos'⟩, cleanStep2_some,
      if_neg (by omega : ¬ t = 0)]
  · rintro ⟨s, tq⟩ h
    rcases h with h | h
    · have h' : tq = none := h
      subst h'
      rfl
    · have h' : tq = some 0 := h
      subst h'
      unfold cleanRow
      rw [cleanStep1_some, if_neg (by omega : ¬ (s > 0 ∧ (0 : Int) > 0)),
        cleanStep2_some, if_pos rfl]
  · unfold cleanInvalidScores cleanRow
    rw [List.map_map]
    rfl
  · intro r hr
    unfold cleanInvalidScores at hr
    rw [List.map_map] at hr
    obtain ⟨r0, hr0, rfl⟩ := List.mem_map.mp hr
    exact cleanRow_valid r0 (hpre r0 hr0)

/-- C10 witness: applying the amended cleanup theorem to a concrete
one-row table with a NULL total_questions. -/
theorem cleanInvalidScores_valid_witness :
    rawRowValid (⟨2, some 2⟩ : RawRow) :=
  (cleanInvalidScores_valid [⟨2, none⟩]
    (by
      intro r hr t ht
      rw [List.mem_singleton] at hr
      subst hr
      cases ht)).2.2.2 ⟨2, some 2⟩ (by decide)

/-- C7: for a nonempty chapter list that never contains the sentinel 0
(get_chapters filters chapter != 0) and bounds lo, hi drawn from that
list, the game-start classification is the claimed tri-state function:
chaptersMin and chaptersMax really are the minimum and maximum of the
list, the assigned chapter code is 0 exactly when (lo, hi) spans
minimum to maximum, otherwise it is lo when lo = hi, and -1
otherwise. -/
theorem classifyChapter_correct (chapters : List Int) (lo hi : Int)
    (hlo : lo ∈ chapters) (hhi : hi ∈ chapters) (h0 : (0 : Int) ∉ chapters) :
    (chaptersMin chapters ∈ chapters ∧ ∀ x ∈ chapters, chaptersMin chapters ≤ x) ∧
    (chaptersMax chapters ∈ chapters ∧ ∀ x ∈ chapters, x ≤ chaptersMax chapters) ∧
    (classifyChapter chapters lo hi = 0 ↔
      lo = chaptersMin chapters ∧ hi = chaptersMax chapters) ∧
    (¬(lo = chaptersMin chapters ∧ hi = chaptersMax chapters) → lo = hi →
      classifyChapter chapters lo hi = lo) ∧
    (¬(lo = chaptersMin chapters ∧ hi = chaptersMax chapters) → lo ≠ hi →
      classifyChapter chapters lo hi = -1) := by
  obtain ⟨c, cs, rfl⟩ : ∃ c cs, chapters = c :: cs := by
    cases chapters with
    | nil => cases hlo
    | cons c cs => exact ⟨c, cs, rfl⟩
  have hmin_eq : chaptersMin (c :: cs) = cs.foldl min c := rfl
  have hmax_eq : chaptersMax (c :: cs) = cs.foldl max c := rfl
  have hminmem : chaptersMin (c :: cs) ∈ c :: cs := by
    rw [hmin_eq]
    rcases foldl_min_mem cs c with h | h
    · rw [h]; exact List.mem_cons_self c cs
    · exact List.mem_cons_of_mem c h
  have hminle : ∀ x ∈ c :: cs, chaptersMin (c :: cs) ≤ x := by
    intro x hx
    rw [hmin_eq]
    rcases List.mem_cons.mp hx with rfl | hx
    · exact (foldl_min_le cs x).1
    · exact (foldl_min_le cs c).2 x hx
  have hmaxmem : chaptersMax (c :: cs) ∈ c :: cs := by
    rw [hmax_eq]
    rcases foldl_max_mem cs c with h | h
    · rw [h]; exact List.mem_cons_self c cs
    · exact List.mem_cons_of_mem c h
  have hmaxle : ∀ x ∈ c :: cs, x ≤ chaptersMax (c :: cs) := by
    intro x hx
    rw [hmax_eq]
    rcases List.mem_cons.mp hx with rfl | hx
    · exact (foldl_max_le cs x).1
    · exact (foldl_max_le cs c).2 x hx
  have hlo0 : lo ≠ 0 := fun h => h0 (h ▸ hlo)
  refine ⟨⟨hminmem, hminle⟩, ⟨hmaxmem, hmaxle⟩, ?_, ?_, ?_⟩
  · unfold classifyChapter
    split_ifs with h1 h2
    · simp [h1]
    · constructor
      · intro h; exact absurd h hlo0
      · intro h; exact absurd h h1
    · constructor
      · intro h; exact absurd h (by decide)
      · intro h; exact absurd h h1
  · intro h1 h2
    unfold classifyChapter
    rw [if_neg h1, if_pos h2]
  · intro h1 h2
    unfold classifyChapter
    rw [if_neg h1, if_neg h2]

/-- C7 witness: the three scenario instances from the specification
for a book with chapters [1, 2, 3], derived from the classification
theorem. -/
theorem classifyChapter_correct_witness :
    classifyChapter [1, 2, 3] 1 3 = 0 ∧ classifyChapter [1, 2, 3] 2 2 = 2 ∧
    classifyChapter [1, 2, 3] 1 2 = -1 :=
  ⟨(classifyChapter_correct [1, 2, 3] 1 3 (by decide) (by decide)
      (by decide)).2.2.1.mpr (by decide),
   (classifyChapter_correct [1, 2, 3] 2 2 (by decide) (by decide)
      (by decide)).2.2.2.1 (by decide) rfl,
   (classifyChapter_correct [1, 2, 3] 1 2 (by decide) (by decide)
      (by decide)).2.2.2.2 (by decide) (by decide)⟩

/-- C4: submit_answer is idempotent per question index: a submission
for an index already in solved_indexes returns the state unchanged,
and hence submitting the same index twice, with any pair of selected
options, yields exactly the state of submitting it once. -/
theorem submitAnswer_idempotent :
    (∀ (idx : Nat) (selected : String) (s : GameState),
      idx ∈ s.solved → submitAnswer idx selected s = s) ∧
    (∀ (idx : Nat) (sel1 sel2 : String) (s : GameState),
      submitAnswer idx sel2 (submitAnswer idx sel1 s) = submitAnswer idx sel1 s) := by
  have hnoop : ∀ (idx : Nat) (selected : String) (s : GameState),
      idx ∈ s.solved → submitAnswer idx selected s = s := by
    intro idx selected s h
    simp [submitAnswer, h]
  refine ⟨hnoop, ?_⟩
  intro idx sel1 sel2 s
  by_cases h : idx ∈ s.solved
  · rw [hnoop idx sel1 s h, hnoop idx sel2 s h]
  · apply hnoop
    unfold submitAnswer
    simp only [h, if_false]
    by_cases h2 : s.currentQ + 1 < s.totalQ
    · simp [h2]
    · simp [h2]

/-- C4 witness: a concrete state whose solved set already contains
index 0 is left unchanged by a further submission for index 0. -/
theorem submitAnswer_idempotent_witness :
    submitAnswer 0 "x" (GameState.mk [⟨"cat", "고양이", "", 1⟩] 1 0 0 {0} Stage.playing)
      = GameState.mk [⟨"cat", "고양이", "", 1⟩] 1 0 0 {0} Stage.playing :=
  submitAnswer_idempotent.1 0 "x"
    (GameState.mk [⟨"cat", "고양이", "", 1⟩] 1 0 0 {0} Stage.playing) (by decide)

/-- Unfolding of the sampling loop at budget 0 (the iteration whose
incremented loop_count is 21). -/
theorem optionsLoopAux_zero (am : List String) (ch : Nat → String) (lc : Nat)
    (opts : List String) :
    optionsLoopAux am ch 0 lc opts =
      if opts.length < 4 then
        (optionsStep am opts (ch (lc + 1)) ++
          List.replicate (4 - (optionsStep am opts (ch (lc + 1))).length) filler,
         lc + 1)
      else (opts, lc) := rfl

/-- Unfolding of the sampling loop while budget remains. -/
theorem optionsLoopAux_succ (am : List String) (ch : Nat → String) (b lc : Nat)
    (opts : List String) :
    optionsLoopAux am ch (b + 1) lc opts =
      if opts.length < 4 then
        optionsLoopAux am ch b (lc + 1) (optionsStep am opts (ch (lc + 1)))
      else (opts, lc) := rfl

/-- The loop body grows the option list by at most one entry. -/
theorem optionsStep_length_le (am opts : List String) (wrong : String) :
    (optionsStep am opts wrong).length ≤ opts.length + 1 := by
  unfold optionsStep
  split_ifs <;> simp

/-- The loop body preserves the bound of at most one occurrence of any
non-placeholder string. -/
theorem optionsStep_count_le (am opts : List String) (wrong s : String)
    (hs : s ≠ insufficientData) (h : opts.count s ≤ 1) :
    (optionsStep am opts wrong).count s ≤ 1 := by
  unfold optionsStep
  split_ifs with h1 h2
  · exact h
  · by_cases hw : wrong = s
    · subst hw
      have : opts.count wrong = 0 := List.count_eq_zero.mpr h2
      simp [List.count_append, this]
    · simpa [List.count_append, List.count_singleton', hw] using h
  · have hne : insufficientData ≠ s := fun hh => hs hh.symm
    simpa [List.count_append, List.count_singleton', hne] using h

/-- The loop body preserves an exactly-one occurrence count of any
non-placeholder string. -/
theorem optionsStep_count_one (am opts : List String) (wrong s : String)
    (hs : s ≠ insufficientData) (h : opts.count s = 1) :
    (optionsStep am opts wrong).count s = 1 := by
  unfold optionsStep
  split_ifs with h1 h2
  · exact h
  · by_cases hw : wrong = s
    · subst hw
      exact absurd (List.count_pos_iff_mem.mp (by omega)) h2
    · simpa [List.count_append, List.count_singleton', hw] using h
  · have hne : insufficientData ≠ s := fun hh => hs hh.symm
    simpa [List.count_append, List.count_singleton', hne] using h

/-- The sampling loop always returns exactly four options. -/
theorem optionsLoopAux_length (am : List String) (ch : Nat → String) :
    ∀ (budget lc : Nat) (opts : List String), opts.length ≤ 4 →
      ((optionsLoopAux am ch budget lc opts).1).length = 4 := by
  intro budget
  induction budget with
  | zero =>
    intro lc opts hle
    rw [optionsLoopAux_zero]
    by_cases h : opts.length < 4
    · rw [if_pos h]
      have h1 := optionsStep_length_le am opts (ch (lc + 1))
      simp only [List.length_append, List.length_replicate]
      omega
    · rw [if_neg h]
      dsimp only
      omega
  | succ b ih =>
    intro lc opts hle
    rw [optionsLoopAux_succ]
    by_cases h : opts.length < 4
    · rw [if_pos h]
      exact ih (lc + 1) _ (by have := optionsStep_length_le am opts (ch (lc + 1)); omega)
    · rw [if_neg h]
      dsimp only
      omega

/-- The sampling loop performs at most budget + 1 further iterations,
so the final loop_count is at most lc + budget + 1. -/
theorem optionsLoopAux_iters (am : List String) (ch : Nat → String) :
    ∀ (budget lc : Nat) (opts : List String),
      (optionsLoopAux am ch budget lc opts).2 ≤ lc + budget + 1 := by
  intro budget
  induction budget with
  | zero =>
    intro lc opts
    rw [optionsLoopAux_zero]
    by_cases h : opts.length < 4
    · rw [if_pos h]
    · rw [if_neg h]
      dsimp only
      omega
  | succ b ih =>
    intro lc opts
    rw [optionsLoopAux_succ]
    by_cases h : opts.length < 4
    · rw [if_pos h]
      have := ih (lc + 1) (optionsStep am opts (ch (lc + 1)))
      omega
    · rw [if_neg h]
      dsimp only
      omega

/-- The sampling loop keeps every non-placeholder string at no more
than one occurrence. -/
theorem optionsLoopAux_count_le (am : List String) (ch : Nat → String) (s : String)
    (hs1 : s ≠ insufficientData) (hs2 : s ≠ filler) :
    ∀ (budget lc : Nat) (opts : List String), opts.count s ≤ 1 →
      ((optionsLoopAux am ch budget lc opts).1).count s ≤ 1 := by
  intro budget
  induction budget with
  | zero =>
    intro lc opts h
    rw [optionsLoopAux_zero]
    by_cases hl : opts.length < 4
    · rw [if_pos hl]
      have hc := optionsStep_count_le am opts (ch (lc + 1)) s hs1 h
      have hne2 : ¬ (filler = s) := fun hh => hs2 hh.symm
      simpa [List.count_append, List.count_replicate, hne2] using hc
    · rw [if_neg hl]
      exact h
  | succ b ih =>
    intro lc opts h
    rw [optionsLoopAux_succ]
    by_cases hl : opts.length < 4
    · rw [if_pos hl]
      exact ih (lc + 1) _ (optionsStep_count_le am opts (ch (lc + 1)) s hs1 h)
    · rw [if_neg hl]
      exact h

/-- The sampling loop keeps a non-placeholder string present exactly
once at exactly one occurrence. -/
theorem optionsLoopAux_count_one (am : List String) (ch : Nat → String) (s : String)
    (hs1 : s ≠ insufficientData) (hs2 : s ≠ filler) :
    ∀ (budget lc : Nat) (opts : List String), opts.count s = 1 →
      ((optionsLoopAux am ch budget lc opts).1).count s = 1 := by
  intro budget
  induction budget with
  | zero =>
    intro lc opts h
    rw [optionsLoopAux_zero]
    by_cases hl : opts.length < 4
    · rw [if_pos hl]
      have hc := optionsStep_count_one am opts (ch (lc + 1)) s hs1 h
      have hne2 : ¬ (filler = s) := fun hh => hs2 hh.symm
      simpa [List.count_append, List.count_replicate, hne2] using hc
    · rw [if_neg hl]
      exact h
  | succ b ih =>
    intro lc opts h
    rw [optionsLoopAux_succ]
    by_cases hl : opts.length < 4
    · rw [if_pos hl]
      exact ih (lc + 1) _ (optionsStep_count_one am opts (ch (lc + 1)) s hs1 h)
    · rw [if_neg hl]
      exact h

/-- C5 counterexample: when the correct answer is literally the
insufficient-data placeholder string and it is the only meaning in the
pool, the generated options contain the correct answer four times, not
exactly once, so the claim fails as stated for this correct answer and
pool (any shuffle of the list keeps every count). -/
theorem genOptions_placeholder_cex :
    ((genOptions insufficientData [insufficientData]
        (fun _ => insufficientData)).1).count insufficientData = 4 ∧
    ((genOptions insufficientData [insufficientData]
        (fun _ => insufficientData)).1).length = 4 := by
  constructor <;> decide

/-- C5 (amended): for every correct answer that is not one of the two
placeholder strings, every meaning pool and every sampling stream, any
shuffle of the generated options has exactly 4 entries, contains the
correct answer exactly once, and contains no non-placeholder entry
twice. -/
theorem genOptions_sound (correct : String) (am : List String)
    (ch : Nat → String) (opts : List String)
    (h1 : correct ≠ insufficientData) (h2 : correct ≠ filler)
    (hperm : opts.Perm (genOptions correct am ch).1) :
    opts.length = 4 ∧ opts.count correct = 1 ∧
    ∀ s, s ≠ insufficientData → s ≠ filler → opts.count s ≤ 1 := by
  refine ⟨?_, ?_, ?_⟩
  · rw [hperm.length_eq]
    exact optionsLoopAux_length am ch 20 0 [correct] (by simp)
  · rw [hperm.count_eq]
    exact optionsLoopAux_count_one am ch correct h1 h2 20 0 [correct] (by simp)
  · intro s hs1 hs2
    rw [hperm.count_eq]
    exact optionsLoopAux_count_le am ch s hs1 hs2 20 0 [correct]
      (le_trans (List.count_le_length s [correct]) (by simp))

/-- C5 witness: a concrete run where the stream keeps returning "b";
the generated options contain the correct answer "a" exactly once. -/
theorem genOptions_sound_witness :
    ((genOptions "a" ["a", "b"] (fun _ => "b")).1).count "a" = 1 :=
  (genOptions_sound "a" ["a", "b"] (fun _ => "b")
    (genOptions "a" ["a", "b"] (fun _ => "b")).1
    (by decide) (by decide) (List.Perm.refl _)).2.1

/-- C6 counterexample: with a two-entry pool whose sampled value is
always the correct answer itself, no iteration ever adds an option, so
the loop runs until the budget check stops it; the final loop_count,
which is the number of loop iterations and hence of random.choice
sampling attempts here, is 21, exceeding the claimed bound of 20. -/
theorem genOptions_attempts_cex :
    (genOptions "a" ["a", "a"] (fun _ => "a")).2 = 21 ∧
    (genOptions "a" ["a", "a"] (fun _ => "a")).1 =
      ["a", filler, filler, filler] := by
  constructor <;> decide

/-- C6 (amended): option generation always terminates with exactly 4
options, performing at most 21 loop iterations (sampling attempts):
the budget check `loop_count > 20` runs after the attempt, so the
attempt that exhausts the budget is the 21st, after which remaining
slots are filled with the "..." placeholder. -/
theorem genOptions_terminates (correct : String) (am : List String)
    (ch : Nat → String) :
    (genOptions correct am ch).2 ≤ 21 ∧
    ((genOptions correct am ch).1).length = 4 :=
  ⟨optionsLoopAux_iters am ch 20 0 [correct],
   optionsLoopAux_length am ch 20 0 [correct] (by simp)⟩

/-- Removing the picked element and putting it back in front is a
permutation of the original pool. -/
theorem get_cons_eraseIdx_perm {α : Type} :
    ∀ (l : List α) (i : Nat) (h : i < l.length),
      (l.get ⟨i, h⟩ :: l.eraseIdx i).Perm l := by
  intro l
  induction l with
  | nil => intro i h; simp at h
  | cons a t ih =>
    intro i h
    cases i with
    | zero => simp [List.eraseIdx]
    | succ i =>
      have hi : i < t.length := by simpa using h
      have h1 : ((a :: t).get ⟨i + 1, h⟩ :: (a :: t).eraseIdx (i + 1)) =
          t.get ⟨i, hi⟩ :: a :: t.eraseIdx i := by simp [List.eraseIdx]
      rw [h1]
      exact (List.Perm.swap a (t.get ⟨i, hi⟩) (t.eraseIdx i)).trans
        ((ih i hi).cons a)

/-- Length of an index-stream sample: the requested count, capped by
the pool size. -/
theorem sampleWR_length {α : Type} (pick : Nat → Nat) :
    ∀ (k : Nat) (pool : List α), (sampleWR pick k pool).length = min k pool.length := by
  intro k
  induction k with
  | zero => intro pool; simp [sampleWR]
  | succ k ih =>
    intro pool
    unfold sampleWR
    by_cases h : pool.length = 0
    · rw [dif_pos h]
      simp [h]
    · rw [dif_neg h]
      have hlt : pick k % pool.length < pool.length :=
        Nat.mod_lt _ (Nat.pos_of_ne_zero h)
      simp only [List.length_cons, ih, List.length_eraseIdx, hlt, if_pos]
      omega

/-- An index-stream sample is a subpermutation of the pool: it draws
each pool entry at most as often as the pool holds it (sampling
without replacement). -/
theorem sampleWR_subperm {α : Type} (pick : Nat → Nat) :
    ∀ (k : Nat) (pool : List α), (sampleWR pick k pool).Subperm pool := by
  intro k
  induction k with
  | zero => intro pool; exact List.nil_subperm
  | succ k ih =>
    intro pool
    unfold sampleWR
    by_cases h : pool.length = 0
    · rw [dif_pos h]
      exact List.nil_subperm
    · rw [dif_neg h]
      have hlt : pick k % pool.length < pool.length :=
        Nat.mod_lt _ (Nat.pos_of_ne_zero h)
      have h1 : (pool.get ⟨pick k % pool.length, hlt⟩ ::
          sampleWR pick k (pool.eraseIdx (pick k % pool.length))).Subperm
          (pool.get ⟨pick k % pool.length, hlt⟩ ::
            pool.eraseIdx (pick k % pool.length)) :=
        (List.subperm_cons _).mpr (ih _)
      exact h1.trans (get_cons_eraseIdx_perm pool _ hlt).subperm

/-- A subpermutation of a duplicate-free list is duplicate-free. -/
theorem subperm_nodup {α : Type} {l₁ l₂ : List α} (h : l₁.Subperm l₂)
    (hn : l₂.Nodup) : l₁.Nodup := by
  obtain ⟨l, hperm, hsub⟩ := h
  exact (hperm.nodup_iff).mp (hsub.nodup hn)

/-- C8: for a nonempty available word list, game start draws exactly
all words (a permutation of the pool) when fewer are available than
requested, and exactly the requested count otherwise; in both cases
the drawn sequence is a subpermutation of the pool (drawn without
replacement, no entry repeated beyond its multiplicity), and a
duplicate-free pool yields a duplicate-free question sequence. -/
theorem startQuestions_correct {α : Type} (pool : List α) (requested : Nat)
    (pick : Nat → Nat) (hpos : 0 < pool.length) :
    (pool.length < requested →
      (startQuestions pool requested pick).length = pool.length ∧
      (startQuestions pool requested pick).Perm pool) ∧
    (requested ≤ pool.length →
      (startQuestions pool requested pick).length = requested) ∧
    (startQuestions pool requested pick).Subperm pool ∧
    (pool.Nodup → (startQuestions pool requested pick).Nodup) := by
  have hsub : (startQuestions pool requested pick).Subperm pool := by
    unfold startQuestions
    split_ifs <;> exact sampleWR_subperm pick _ pool
  refine ⟨?_, ?_, hsub, fun hn => subperm_nodup hsub hn⟩
  · intro h
    have hlen : (startQuestions pool requested pick).length = pool.length := by
      unfold startQuestions
      rw [if_pos h, sampleWR_length]
      omega
    exact ⟨hlen, hsub.perm_of_length_le (by omega)⟩
  · intro h
    unfold startQuestions
    rw [if_neg (by omega), sampleWR_length]
    omega

/-- C8 witness: a concrete three-word pool with two questions
requested yields exactly two questions. -/
theorem startQuestions_correct_witness :
    (startQuestions [10, 20, 30] 2 (fun _ => 0)).length = 2 :=
  (startQuestions_correct [10, 20, 30] 2 (fun _ => 0) (by decide)).2.1 (by decide)

/-- One submit_answer call preserves the scoring invariant: the total
question count is unchanged, the score stays bounded by the number of
solved indexes, and solved indexes stay below the question count,
provided the submitted index is in range. -/
theorem submitAnswer_inv (idx : Nat) (sel : String) (s : GameState)
    (hidx : idx < s.totalQ) (h1 : s.score ≤ s.solved.card)
    (h2 : ∀ i ∈ s.solved, i < s.totalQ) :
    (submitAnswer idx sel s).totalQ = s.totalQ ∧
    (submitAnswer idx sel s).score ≤ (submitAnswer idx sel s).solved.card ∧
    (∀ i ∈ (submitAnswer idx sel s).solved, i < (submitAnswer idx sel s).totalQ) := by
  unfold submitAnswer
  by_cases hmem : idx ∈ s.solved
  · simp only [hmem, if_true]
    exact ⟨by trivial, h1, h2⟩
  · simp only [hmem, if_false]
    have hcard : (insert idx s.solved).card = s.solved.card + 1 :=
      Finset.card_insert_of_not_mem hmem
    have hscore : (if sel = (s.words.getD idx defaultWord).korean
        then s.score + 1 else s.score) ≤ s.solved.card + 1 := by
      split_ifs <;> omega
    have hmem' : ∀ i ∈ insert idx s.solved, i < s.totalQ := by
      intro i hi
      rcases Finset.mem_insert.mp hi with rfl | hi
      · exact hidx
      · exact h2 i hi
    by_cases hq : s.currentQ + 1 < s.totalQ
    · simp only [hq, if_true]
      exact ⟨by trivial, by simpa [hcard] using hscore, hmem'⟩
    · simp only [hq, if_false]
      exact ⟨by trivial, by simpa [hcard] using hscore, hmem'⟩

/-- Running a sequence of in-range submissions preserves the scoring
invariant. -/
theorem runSubmits_inv :
    ∀ (subs : List (Nat × String)) (s : GameState),
      (∀ p ∈ subs, p.1 < s.totalQ) → s.score ≤ s.solved.card →
      (∀ i ∈ s.solved, i < s.totalQ) →
      (runSubmits s subs).totalQ = s.totalQ ∧
      (runSubmits s subs).score ≤ (runSubmits s subs).solved.card ∧
      (∀ i ∈ (runSubmits s subs).solved, i < (runSubmits s subs).totalQ) := by
  intro subs
  induction subs with
  | nil => intro s _ h1 h2; exact ⟨rfl, h1, h2⟩
  | cons p subs ih =>
    intro s hall h1 h2
    have hp : p.1 < s.totalQ := hall p (List.mem_cons_self p subs)
    have hstep := submitAnswer_inv p.1 p.2 s hp h1 h2
    have hrun : runSubmits s (p :: subs) = runSubmits (submitAnswer p.1 p.2 s) subs := rfl
    rw [hrun]
    have hres := ih (submitAnswer p.1 p.2 s)
      (by intro q hq; rw [hstep.1]; exact hall q (List.mem_cons_of_mem p hq))
      hstep.2.1 hstep.2.2
    exact ⟨hres.1.trans hstep.1, hres.2.1, by
      intro i hi
      exact hres.2.2 i hi⟩

/-- C9: starting a session over any word list and running any sequence
of submit_answer callbacks whose indexes are in range (every index a
callback can carry is a question index of the session) keeps the score
between 0 and the total question count. -/
theorem score_le_totalQ (ws : List Word) (subs : List (Nat × String))
    (hsubs : ∀ p ∈ subs, p.1 < ws.length) :
    (runSubmits (startSession ws) subs).score ≤
      (runSubmits (startSession ws) subs).totalQ := by
  have h0 : (startSession ws).totalQ = ws.length := rfl
  have hinv := runSubmits_inv subs (startSession ws)
    (by intro p hp; rw [h0]; exact hsubs p hp)
    (by simp [startSession]) (by simp [startSession])
  have hsubset : (runSubmits (startSession ws) subs).solved ⊆
      Finset.range ((runSubmits (startSession ws) subs).totalQ) := by
    intro i hi
    exact Finset.mem_range.mpr (hinv.2.2 i hi)
  calc (runSubmits (startSession ws) subs).score
      ≤ (runSubmits (startSession ws) subs).solved.card := hinv.2.1
    _ ≤ (Finset.range ((runSubmits (startSession ws) subs).totalQ)).card :=
        Finset.card_le_card hsubset
    _ = (runSubmits (startSession ws) subs).totalQ := Finset.card_range _

/-- C9 witness: a concrete one-word session with one correct
submission ends with score at most the question count. -/
theorem score_le_totalQ_witness :
    (runSubmits (startSession [⟨"cat", "고양이", "", 1⟩]) [(0, "고양이")]).score ≤
      (runSubmits (startSession [⟨"cat", "고양이", "", 1⟩]) [(0, "고양이")]).totalQ :=
  score_le_totalQ [⟨"cat", "고양이", "", 1⟩] [(0, "고양이")] (by decide)

/-- The champion ordering is irreflexive. -/
theorem champLt_irrefl (a : Row) : ¬ champLt a a := by
  rintro (h | ⟨-, h | ⟨-, h⟩⟩) <;> exact lt_irrefl _ h

/-- The champion ordering is transitive. -/
theorem champLt_trans {a b c : Row} (h1 : champLt a b) (h2 : champLt b c) :
    champLt a c := by
  unfold champLt at h1 h2 ⊢
  rcases h1 with h1 | ⟨e1, h1⟩
  · rcases h2 with h2 | ⟨e2, h2⟩
    · exact Or.inl (lt_trans h2 h1)
    · exact Or.inl (by rw [← e2]; exact h1)
  · rcases h2 with h2 | ⟨e2, h2⟩
    · exact Or.inl (by rw [e1]; exact h2)
    · refine Or.inr ⟨e1.trans e2, ?_⟩
      rcases h1 with h1 | ⟨f1, h1⟩
      · rcases h2 with h2 | ⟨f2, h2⟩
        · exact Or.inl (lt_trans h2 h1)
        · exact Or.inl (by rw [← f2]; exact h1)
      · rcases h2 with h2 | ⟨f2, h2⟩
        · exact Or.inl (by rw [f1]; exact h2)
        · exact Or.inr ⟨f1.trans f2, lt_trans h1 h2⟩

/-- The champion ordering is total up to key equality. -/
theorem champLt_total (a b : Row) :
    champLt a b ∨ champLt b a ∨
      (a.score = b.score ∧ a.total = b.total ∧ a.time = b.time) := by
  unfold champLt
  rcases lt_trichotomy a.score b.score with h | h | h
  · exact Or.inr (Or.inl (Or.inl h))
  · rcases lt_trichotomy a.total b.total with h2 | h2 | h2
    · exact Or.inr (Or.inl (Or.inr ⟨h.symm, Or.inl h2⟩))
    · rcases lt_trichotomy a.time b.time with h3 | h3 | h3
      · exact Or.inl (Or.inr ⟨h, Or.inr ⟨h2, h3⟩⟩)
      · exact Or.inr (Or.inr ⟨h, h2, h3⟩)
      · exact Or.inr (Or.inl (Or.inr ⟨h.symm, Or.inr ⟨h2.symm, h3⟩⟩))
    · exact Or.inl (Or.inr ⟨h, Or.inl h2⟩)
  · exact Or.inl (Or.inl h)

/-- Key-equal rows are interchangeable on the left of the champion
ordering. -/
theorem champLt_congr {a b r : Row} (hs : a.score = b.score)
    (ht : a.total = b.total) (hm : a.time = b.time) (h : champLt b r) :
    champLt a r := by
  unfold champLt at h ⊢
  rw [hs, ht, hm]
  exact h

/-- A row that does not strictly precede another inherits strict
precedence over anything that row strictly precedes. -/
theorem champLt_of_not_lt {a b r : Row} (h : ¬ champLt b a)
    (h2 : champLt b r) : champLt a r := by
  rcases champLt_total a b with hab | hba | ⟨hs, ht, hm⟩
  · exact champLt_trans hab h2
  · exact absurd hba h
  · exact champLt_congr hs ht hm h2

/-- The champion fold returns the seed or a list element. -/
theorem foldl_pickChamp_mem :
    ∀ (l : List Row) (a : Row), l.foldl pickChamp a = a ∨ l.foldl pickChamp a ∈ l := by
  intro l
  induction l with
  | nil => intro a; exact Or.inl rfl
  | cons b t ih =>
    intro a
    have hstep : List.foldl pickChamp a (b :: t) =
        List.foldl pickChamp (pickChamp a b) t := rfl
    rw [hstep]
    by_cases hba : champLt b a
    · have hpc : pickChamp a b = b := by unfold pickChamp; rw [if_pos hba]
      rw [hpc]
      rcases ih b with h | h
      · exact Or.inr (by rw [h]; exact List.mem_cons_self b t)
      · exact Or.inr (List.mem_cons_of_mem b h)
    · have hpc : pickChamp a b = a := by unfold pickChamp; rw [if_neg hba]
      rw [hpc]
      rcases ih a with h | h
      · exact Or.inl h
      · exact Or.inr (List.mem_cons_of_mem b h)

/-- No row among the seed and the list strictly precedes the champion
fold's result: the fold computes the first row of the ORDER BY. -/
theorem foldl_pickChamp_min :
    ∀ (l : List Row) (a c : Row), (c = a ∨ c ∈ l) →
      ¬ champLt c (l.foldl pickChamp a) := by
  intro l
  induction l with
  | nil =>
    intro a c hc
    rcases hc with rfl | hc
    · exact champLt_irrefl c
    · cases hc
  | cons b t ih =>
    intro a c hc
    have hstep : List.foldl pickChamp a (b :: t) =
        List.foldl pickChamp (pickChamp a b) t := rfl
    rw [hstep]
    by_cases hba : champLt b a
    · have hpc : pickChamp a b = b := by unfold pickChamp; rw [if_pos hba]
      rw [hpc]
      rcases hc with rfl | hc
      · intro hlt
        exact ih b b (Or.inl rfl) (champLt_trans hba hlt)
      · rcases List.mem_cons.mp hc with rfl | hc2
        · exact ih _ _ (Or.inl rfl)
        · exact ih b c (Or.inr hc2)
    · have hpc : pickChamp a b = a := by unfold pickChamp; rw [if_neg hba]
      rw [hpc]
      rcases hc with rfl | hc
      · exact ih _ _ (Or.inl rfl)
      · rcases List.mem_cons.mp hc with rfl | hc2
        · intro hlt
          exact ih a a (Or.inl rfl) (champLt_of_not_lt hba hlt)
        · exact ih a c (Or.inr hc2)

/-- C1 counterexample: two chapter-0 records with equal score, where
record "A" has the larger total_questions but the slower time and
record "B" the faster time. The claimed ordering (score DESC, time
ASC, nothing else) would return "B", but get_book_champion orders by
score DESC, total_questions DESC, time_taken ASC and returns "A". -/
theorem getBookChampion_order_cex :
    getBookChampion
        [⟨1, "A", "bk", 0, 5, 10, 100, 0⟩, ⟨2, "B", "bk", 0, 5, 5, 10, 0⟩] "bk" =
      some ("A", 5, 10) ∧
    getBookChampionSpec
        [⟨1, "A", "bk", 0, 5, 10, 100, 0⟩, ⟨2, "B", "bk", 0, 5, 5, 10, 0⟩] "bk" =
      some ("B", 5, 5) ∧
    getBookChampion
        [⟨1, "A", "bk", 0, 5, 10, 100, 0⟩, ⟨2, "B", "bk", 0, 5, 5, 10, 0⟩] "bk" ≠
    getBookChampionSpec
        [⟨1, "A", "bk", 0, 5, 10, 100, 0⟩, ⟨2, "B", "bk", 0, 5, 5, 10, 0⟩] "bk" := by
  refine ⟨by decide, by decide, by decide⟩

/-- C1 (amended): get_book_champion returns none exactly when the book
has no chapter-0 record; otherwise it returns the projection of a
chapter-0 record of the book that no other chapter-0 record of the
book strictly precedes under the key (score DESC, total_questions
DESC, time_taken ASC); in particular its score is maximal among the
book's chapter-0 records. -/
theorem getBookChampion_correct (db : List Row) (book : String) :
    (getBookChampion db book = none ↔
      db.filter (fun r => decide (r.book = book ∧ r.chapter = 0)) = []) ∧
    (∀ p s t, getBookChampion db book = some (p, s, t) →
      ∃ r, r ∈ db ∧ r.book = book ∧ r.chapter = 0 ∧
        r.player = p ∧ r.score = s ∧ r.total = t ∧
        ∀ c ∈ db, c.book = book → c.chapter = 0 →
          ¬ champLt c r ∧ c.score ≤ r.score) := by
  unfold getBookChampion
  cases hfil : db.filter (fun r => decide (r.book = book ∧ r.chapter = 0)) with
  | nil =>
    constructor
    · simp
    · intro p s t h
      cases h
  | cons c rest =>
    constructor
    · simp
    · intro p s t h
      have hw : (rest.foldl pickChamp c).player = p ∧
          (rest.foldl pickChamp c).score = s ∧ (rest.foldl pickChamp c).total = t := by
        have h' := Option.some.inj h
        exact ⟨congrArg Prod.fst h', congrArg (fun q => q.2.1) h',
          congrArg (fun q => q.2.2) h'⟩
      set w := rest.foldl pickChamp c with hwdef
      have hwmem : w ∈ c :: rest := by
        rcases foldl_pickChamp_mem rest c with h1 | h1
        · rw [hwdef, h1]; exact List.mem_cons_self c rest
        · exact List.mem_cons_of_mem c h1
      have hwfil : w ∈ db.filter (fun r => decide (r.book = book ∧ r.chapter = 0)) := by
        rw [hfil]; exact hwmem
      have hwdb := List.mem_filter.mp hwfil
      have hwprop : w.book = book ∧ w.chapter = 0 := of_decide_eq_true hwdb.2
      refine ⟨w, hwdb.1, hwprop.1, hwprop.2, hw.1, hw.2.1, hw.2.2, ?_⟩
      intro x hx hxb hxc
      have hxfil : x ∈ c :: rest := by
        rw [← hfil]
        exact List.mem_filter.mpr ⟨hx, decide_eq_true ⟨hxb, hxc⟩⟩
      have hnot : ¬ champLt x w := by
        rcases List.mem_cons.mp hxfil with rfl | hxr
        · exact foldl_pickChamp_min rest _ _ (Or.inl rfl)
        · exact foldl_pickChamp_min rest c x (Or.inr hxr)
      refine ⟨hnot, ?_⟩
      by_contra hgt
      exact hnot (Or.inl (by omega))

/-- C1 witness: the amended champion theorem applied to a concrete
one-record table. -/
theorem getBookChampion_correct_witness :
    ∃ r, r ∈ [(⟨1, "kim", "bk", 0, 5, 10, 7, 0⟩ : Row)] ∧ r.book = "bk" ∧
      r.chapter = 0 ∧ r.player = "kim" ∧ r.score = 5 ∧ r.total = 10 ∧
      ∀ c ∈ [(⟨1, "kim", "bk", 0, 5, 10, 7, 0⟩ : Row)], c.book = "bk" →
        c.chapter = 0 → ¬ champLt c r ∧ c.score ≤ r.score :=
  (getBookChampion_correct [⟨1, "kim", "bk", 0, 5, 10, 7, 0⟩] "bk").2
    "kim" 5 10 (by decide)

/-- Unfolding of the top-10 retention with the empty-keep guard made
explicit. -/
theorem trimGroup_eq (db : List Row) (b : String) (c t : Int) :
    trimGroup db b c t =
      if (top10Ids db b c t).isEmpty then db
      else db.filter (fun r =>
        decide (¬(r.book = b ∧ r.chapter = c ∧ r.total = t) ∨
          r.id ∈ top10Ids db b c t)) := rfl

/-- save_score_if_best when no record matches the key: insert a fresh
row with the clamped score, report an update, and trim the group. -/
theorem saveScoreIfBest_none (db : List Row) (name book : String) (chapter : Int)
    (score0 total : Int) (time : Rat) (now : Nat)
    (h : findRecord db name book chapter total = none) :
    saveScoreIfBest db name book chapter score0 total time now =
      (trimGroup (db ++ [⟨nextId db, name, book, chapter,
        clampScore score0 total, total, time, now⟩]) book chapter total, true) := by
  unfold saveScoreIfBest applyResult
  rw [h]
  rfl

/-- save_score_if_best when the matched record is beaten (strictly
higher clamped score, or equal score and strictly faster time): update
the row in place, report an update, and trim the group. -/
theorem saveScoreIfBest_some_better (db : List Row) (name book : String)
    (chapter : Int) (score0 total : Int) (time : Rat) (now : Nat) (r : Row)
    (h : findRecord db name book chapter total = some r)
    (hcond : clampScore score0 total > r.score ∨
      (clampScore score0 total = r.score ∧ time < r.time)) :
    saveScoreIfBest db name book chapter score0 total time now =
      (trimGroup (db.map (fun x => if x.id = r.id then
        updRow x (clampScore score0 total) time now else x)) book chapter total,
       true) := by
  unfold saveScoreIfBest applyResult
  rw [h]
  dsimp only
  rw [if_pos hcond]
  rfl

/-- save_score_if_best when the matched record is not beaten: the
table is left untouched and no update is reported. -/
theorem saveScoreIfBest_some_worse (db : List Row) (name book : String)
    (chapter : Int) (score0 total : Int) (time : Rat) (now : Nat) (r : Row)
    (h : findRecord db name book chapter total = some r)
    (hcond : ¬(clampScore score0 total > r.score ∨
      (clampScore score0 total = r.score ∧ time < r.time))) :
    saveScoreIfBest db name book chapter score0 total time now = (db, false) := by
  unfold saveScoreIfBest applyResult
  rw [h]
  dsimp only
  rw [if_neg hcond]
  rfl

/-- C2: record_result first clamps the score to min(score, total): on a
missing (player, book, chapter, total_questions) key it inserts and
returns true; on a present key it returns true and updates the row in
place (new score, new time, refreshed timestamp) iff the clamped score
beats the stored one or ties it with a faster time, and otherwise
returns false leaving the table completely unchanged. -/
theorem saveScoreIfBest_correct (db : List Row) (name book : String)
    (chapter : Int) (score0 total : Int) (time : Rat) (now : Nat) :
    clampScore score0 total = min score0 total ∧
    (findRecord db name book chapter total = none →
      (saveScoreIfBest db name book chapter score0 total time now).2 = true ∧
      (saveScoreIfBest db name book chapter score0 total time now).1 =
        trimGroup (db ++ [⟨nextId db, name, book, chapter,
          clampScore score0 total, total, time, now⟩]) book chapter total) ∧
    (∀ r, findRecord db name book chapter total = some r →
      ((saveScoreIfBest db name book chapter score0 total time now).2 = true ↔
        (clampScore score0 total > r.score ∨
          (clampScore score0 total = r.score ∧ time < r.time))) ∧
      (¬(clampScore score0 total > r.score ∨
          (clampScore score0 total = r.score ∧ time < r.time)) →
        (saveScoreIfBest db name book chapter score0 total time now).1 = db) ∧
      ((clampScore score0 total > r.score ∨
          (clampScore score0 total = r.score ∧ time < r.time)) →
        (saveScoreIfBest db name book chapter score0 total time now).1 =
          trimGroup (db.map (fun x => if x.id = r.id then
            updRow x (clampScore score0 total) time now else x))
            book chapter total)) := by
  refine ⟨?_, ?_, ?_⟩
  · unfold clampScore
    rw [min_def]
    split_ifs <;> omega
  · intro h
    rw [saveScoreIfBest_none db name book chapter score0 total time now h]
    exact ⟨rfl, rfl⟩
  · intro r h
    refine ⟨⟨?_, ?_⟩, ?_, ?_⟩
    · intro htrue
      by_contra hcond
      rw [saveScoreIfBest_some_worse db name book chapter score0 total time now r
        h hcond] at htrue
      exact Bool.noConfusion htrue
    · intro hcond
      rw [saveScoreIfBest_some_better db name book chapter score0 total time now r
        h hcond]
    · intro hcond
      rw [saveScoreIfBest_some_worse db name book chapter score0 total time now r
        h hcond]
    · intro hcond
      rw [saveScoreIfBest_some_better db name book chapter score0 total time now r
        h hcond]

/-- C2 witness: saving into an empty table inserts and returns
true. -/
theorem saveScoreIfBest_correct_witness :
    (saveScoreIfBest [] "kim" "bk" 0 3 5 2 0).2 = true :=
  ((saveScoreIfBest_correct [] "kim" "bk" 0 3 5 2 0).2.1 rfl).1

/-- Every element of a list is bounded by its foldr max. -/
theorem le_foldr_max (l : List Nat) : ∀ x ∈ l, x ≤ l.foldr max 0 := by
  induction l with
  | nil => intro x hx; cases hx
  | cons a t ih =>
    intro x hx
    rcases List.mem_cons.mp hx with rfl | hx
    · exact le_max_left _ _
    · exact le_trans (ih x hx) (le_max_right _ _)

/-- The AUTOINCREMENT id is fresh. -/
theorem nextId_not_mem (db : List Row) : nextId db ∉ db.map Row.id := by
  intro h
  have h2 := le_foldr_max (db.map Row.id) (nextId db) h
  unfold nextId at h2
  omega

/-- Trimming only removes rows. -/
theorem trimGroup_sublist (db : List Row) (b : String) (c t : Int) :
    (trimGroup db b c t).Sublist db := by
  rw [trimGroup_eq]
  split_ifs
  · exact List.Sublist.refl db
  · exact List.filter_sublist db

/-- A sublist of the table has no larger ranking groups. -/
theorem groupRows_length_sublist {db1 db2 : List Row} (h : db1.Sublist db2)
    (b : String) (c t : Int) :
    (groupRows db1 b c t).length ≤ (groupRows db2 b c t).length :=
  (List.Sublist.filter _ h).length_le

/-- The retention query keeps at most ten ids. -/
theorem top10Ids_length (db : List Row) (b : String) (c t : Int) :
    (top10Ids db b c t).length ≤ 10 := by
  unfold top10Ids
  rw [List.length_map, List.length_take]
  omega

/-- After trimming, the trimmed group holds at most ten rows, provided
row ids are unique (the rankings table's PRIMARY KEY). -/
theorem trimGroup_self_le (db : List Row) (b : String) (c t : Int)
    (hids : (db.map Row.id).Nodup) :
    (groupRows (trimGroup db b c t) b c t).length ≤ 10 := by
  rw [trimGroup_eq]
  by_cases hemp : (top10Ids db b c t).isEmpty
  · rw [if_pos hemp]
    have hkeep : top10Ids db b c t = [] := List.isEmpty_iff.mp hemp
    unfold top10Ids at hkeep
    have htake : (((groupRows db b c t).mergeSort trimLe).take 10) = [] :=
      List.map_eq_nil.mp hkeep
    have hsorted : (groupRows db b c t).mergeSort trimLe = [] := by
      rcases List.take_eq_nil_iff.mp htake with h | h
      · exact absurd h (by decide)
      · exact h
    have hlen : (groupRows db b c t).length = 0 := by
      rw [← @List.length_mergeSort _ trimLe (groupRows db b c t), hsorted]
      rfl
    omega
  · rw [if_neg hemp]
    set S := groupRows (db.filter (fun r =>
      decide (¬(r.book = b ∧ r.chapter = c ∧ r.total = t) ∨
        r.id ∈ top10Ids db b c t))) b c t with hS
    have hsubS : S.Sublist db :=
      (List.filter_sublist _).trans (List.filter_sublist db)
    have hsubIds : ∀ x ∈ S.map Row.id, x ∈ top10Ids db b c t := by
      intro x hx
      obtain ⟨r, hr, rfl⟩ := List.mem_map.mp hx
      rw [hS] at hr
      have hr1 := List.mem_filter.mp hr
      have hgp : r.book = b ∧ r.chapter = c ∧ r.total = t :=
        of_decide_eq_true hr1.2
      have hr2 := List.mem_filter.mp hr1.1
      have hkp : ¬(r.book = b ∧ r.chapter = c ∧ r.total = t) ∨
          r.id ∈ top10Ids db b c t := of_decide_eq_true hr2.2
      rcases hkp with hkp | hkp
      · exact absurd hgp hkp
      · exact hkp
    have hnodupS : (S.map Row.id).Nodup :=
      List.Nodup.sublist (hsubS.map Row.id) hids
    have hsp := List.Nodup.subperm hnodupS (fun x hx => hsubIds x hx)
    have hlen := hsp.length_le
    rw [List.length_map] at hlen
    exact le_trans hlen (top10Ids_length db b c t)

/-- A map that does not move rows across the filter predicate keeps
filter lengths. -/
theorem length_filter_map_eq {α : Type} (f : α → α) (p : α → Bool)
    (h : ∀ x, p (f x) = p x) :
    ∀ l : List α, (List.filter p (l.map f)).length = (List.filter p l).length := by
  intro l
  induction l with
  | nil => rfl
  | cons a l ih =>
    rw [List.map_cons, List.filter_cons, List.filter_cons, h a]
    by_cases hpa : p a = true
    · rw [hpa]
      simp [ih]
    · have hpa' : p a = false := by
        revert hpa
        cases p a <;> simp
      rw [hpa']
      simp [ih]

/-- C3: if every (book, chapter, total_questions) group of the
rankings table holds at most 10 rows and row ids are unique (PRIMARY
KEY), then after any record_result call every group again holds at
most 10 rows: the affected group is trimmed to its top 10 and no other
group changes. -/
theorem saveScoreIfBest_top10 (db : List Row) (name book : String) (chapter : Int)
    (score0 total : Int) (time : Rat) (now : Nat)
    (hids : (db.map Row.id).Nodup)
    (hbound : ∀ b c t, (groupRows db b c t).length ≤ 10) :
    ∀ (b : String) (c t : Int),
      (groupRows (saveScoreIfBest db name book chapter score0 total time now).1
        b c t).length ≤ 10 := by
  intro b c t
  cases hfind : findRecord db name book chapter total with
  | some r =>
    by_cases hcond : clampScore score0 total > r.score ∨
        (clampScore score0 total = r.score ∧ time < r.time)
    · rw [saveScoreIfBest_some_better db name book chapter score0 total time now r
        hfind hcond]
      dsimp only
      have h1 := groupRows_length_sublist
        (trimGroup_sublist (db.map (fun x => if x.id = r.id then
          updRow x (clampScore score0 total) time now else x)) book chapter total)
        b c t
      have h2 := length_filter_map_eq
        (fun x => if x.id = r.id then updRow x (clampScore score0 total) time now else x)
        (fun r0 => decide (r0.book = b ∧ r0.chapter = c ∧ r0.total = t))
        (by
          intro x
          by_cases hx : x.id = r.id
          · simp [hx, updRow]
          · simp [hx]) db
      have h3 := hbound b c t
      unfold groupRows at h1 h3 ⊢
      omega
    · rw [saveScoreIfBest_some_worse db name book chapter score0 total time now r
        hfind hcond]
      exact hbound b c t
  | none =>
    rw [saveScoreIfBest_none db name book chapter score0 total time now hfind]
    dsimp only
    have hids1 : (((db ++ [(⟨nextId db, name, book, chapter,
        clampScore score0 total, total, time, now⟩ : Row)]).map Row.id)).Nodup := by
      simp only [List.map_append, List.map_cons, List.map_nil]
      rw [List.nodup_append]
      refine ⟨hids, List.nodup_singleton _, ?_⟩
      intro x hx hx2
      rw [List.mem_singleton] at hx2
      subst hx2
      exact nextId_not_mem db hx
    by_cases hb : b = book ∧ c = chapter ∧ t = total
    · obtain ⟨rfl, rfl, rfl⟩ := hb
      exact trimGroup_self_le _ b c t hids1
    · have h1 := groupRows_length_sublist
        (trimGroup_sublist (db ++ [⟨nextId db, name, book, chapter,
          clampScore score0 total, total, time, now⟩]) book chapter total) b c t
      have h2 : groupRows (db ++ [⟨nextId db, name, book, chapter,
          clampScore score0 total, total, time, now⟩]) b c t =
          groupRows db b c t := by
        unfold groupRows
        rw [List.filter_append]
        have hnew : List.filter (fun r0 =>
            decide (r0.book = b ∧ r0.chapter = c ∧ r0.total = t))
            [(⟨nextId db, name, book, chapter,
              clampScore score0 total, total, time, now⟩ : Row)] = [] := by
          simp only [List.filter, decide_eq_true_eq]
          have : ¬(book = b ∧ chapter = c ∧ total = t) := by
            intro hcontra
            exact hb ⟨hcontra.1.symm, hcontra.2.1.symm, hcontra.2.2.symm⟩
          simp [this]
        rw [hnew, List.append_nil]
      have h3 := hbound b c t
      rw [h2] at h1
      exact le_trans h1 h3

/-- C3 witness: a call on the empty table (unique ids, all groups
empty) keeps every group within ten rows; instantiated at one concrete
group. -/
theorem saveScoreIfBest_top10_witness :
    (groupRows (saveScoreIfBest [] "kim" "bk" 0 3 5 2 0).1 "bk" 0 5).length ≤ 10 :=
  saveScoreIfBest_top10 [] "kim" "bk" 0 3 5 2 0 (by decide)
    (fun b c t => by simp [groupRows]) "bk" 0 5

end Voca
